import Mathlib

/-!
Verification of tek: the image-conversion processor (`src/tek/processor/imagemagick.c`)

A shallow embedding of the image-conversion processor of tek and of the
string helpers it is built from, followed by theorems about them.

Conventions of the embedding.

* A C string is the `List Char` of its characters before the terminating NUL.
* A function whose C body can read or write outside the object it was given
  returns an `Option`; `none` stands for that undefined behaviour.  No other
  failure is modelled: allocation (`talloc`) always succeeds and string
  lengths fit the C integer types.
* The makefile sink (`struct makefile`) is the list of the operations that
  were performed on it, in call order; standard error is the text written.
-/

namespace Tek

/-! ## Data model -/

/-- The claim `struct processor_imagemagick`: the two per-file flags that
`processor_imagemagick_search` decides (the `name` and `process` members of the
embedded `struct processor` are the same for every claim). -/
structure processor_imagemagick where
  crop : Bool
  inkscape : Bool
  deriving DecidableEq, Repr

/-- One operation on the makefile sink.  Commands carry their text after the
printf-style substitution of the arguments. -/
inductive MakeOp where
  | createTarget (name : List Char)
  | startDeps
  | addDep (name : List Char)
  | endDeps
  | startCmds
  | addNamedCmd (text : List Char)
  | addCmd (text : List Char)
  | endCmds
  deriving DecidableEq, Repr

/-- What `process` can change: the makefile sink `m` and standard error. -/
structure World where
  makefile : List MakeOp
  stderr : List Char
  deriving DecidableEq, Repr

/-! ## The makefile sink -/

/-- Modelled from the spec: `makefile_create_target` (makefile.c is not part
of the sources at hand); the sink records `createTarget(name)`. -/
def makefile_create_target (m : List MakeOp) (name : List Char) : List MakeOp :=
  m ++ [MakeOp.createTarget name]

/-- Modelled from the spec: `makefile_start_deps`; the sink records `startDeps()`. -/
def makefile_start_deps (m : List MakeOp) : List MakeOp :=
  m ++ [MakeOp.startDeps]

/-- Modelled from the spec: `makefile_add_dep`; the sink records `addDep(name)`. -/
def makefile_add_dep (m : List MakeOp) (name : List Char) : List MakeOp :=
  m ++ [MakeOp.addDep name]

/-- Modelled from the spec: `makefile_end_deps`; the sink records `endDeps()`. -/
def makefile_end_deps (m : List MakeOp) : List MakeOp :=
  m ++ [MakeOp.endDeps]

/-- Modelled from the spec: `makefile_start_cmds`; the sink records `startCmds()`. -/
def makefile_start_cmds (m : List MakeOp) : List MakeOp :=
  m ++ [MakeOp.startCmds]

/-- Modelled from the spec: `makefile_nam_cmd`; the sink records
`addNamedCmd` with the formatted text. -/
def makefile_nam_cmd (m : List MakeOp) (text : List Char) : List MakeOp :=
  m ++ [MakeOp.addNamedCmd text]

/-- Modelled from the spec: `makefile_add_cmd`; the sink records `addCmd`
with the formatted text. -/
def makefile_add_cmd (m : List MakeOp) (text : List Char) : List MakeOp :=
  m ++ [MakeOp.addCmd text]

/-- Modelled from the spec: `makefile_end_cmds`; the sink records `endCmds()`. -/
def makefile_end_cmds (m : List MakeOp) : List MakeOp :=
  m ++ [MakeOp.endCmds]

/-! ## String helpers -/

/-- `string_ends_with`: `strcmp(string + strlen(string) - strlen(end), end) == 0`.
When `end` is longer than `string` the pointer lies before the start of
`string` and the comparison reads outside it: `none`. -/
def string_ends_with (string end_ : List Char) : Option Bool :=
  if end_.length ≤ string.length then
    some (decide (string.drop (string.length - end_.length) = end_))
  else
    none

/-- The loop of `basename_len`: `n` is `i + 1`, so the loop runs while `n > 0`
and looks at `string[n - 1]`. -/
def basename_len_loop (string : List Char) : Nat → Nat
  | 0 => 0
  | n + 1 => if string.get? n = some '/' then n else basename_len_loop string n

/-- `basename_len`: the index of the last `/`, or 0 when there is none. -/
def basename_len (string : List Char) : Nat :=
  basename_len_loop string string.length

/-- `strncmp(x, y, n) == 0`: the first `n` characters (fewer where a string
ends earlier) agree. -/
def strncmp_eq (x y : List Char) (n : Nat) : Bool :=
  decide (x.take n = y.take n)

/-- The loop of `string_index`: `rest` is `a + i`, and `i < strlen(a)` holds
exactly while `rest` is not empty. -/
def string_index_loop (b : List Char) : List Char → Nat → Int
  | [], _ => -1
  | c :: rest, i =>
    if strncmp_eq (c :: rest) b b.length then (i : Int)
    else string_index_loop b rest (i + 1)

/-- `string_index`: the first `i < strlen(a)` with
`strncmp(a + i, b, strlen(b)) == 0`, or -1. -/
def string_index (a b : List Char) : Int :=
  string_index_loop b a 0

/-- A store `buf[idx] = 0` into a buffer holding the string `buf` and able to
hold `cap` characters before its terminator.  In range, the string is cut at
`idx` (unchanged when `idx` is at or past its end); out of range: `none`. -/
def store_nul (cap : Nat) (buf : List Char) (idx : Nat) : Option (List Char) :=
  if idx ≤ cap then some (buf.take idx) else none

/-- `strcat(dst, src)` into a buffer able to hold `cap` characters. -/
def strcat (cap : Nat) (dst src : List Char) : Option (List Char) :=
  if dst.length + src.length ≤ cap then some (dst ++ src) else none

/-- The `size_t` difference `a - b` used as an index or a count: `some` of
the difference when it does not wrap, `none` when `a < b` (the value wraps to
at least `2^64 - b`, past the end of any object). -/
def size_sub (a b : Nat) : Option Nat :=
  if b ≤ a then some (a - b) else none

/-- `talloc_strndup(c, s, n)`: at most `n` characters of `s`; `n = none` is a
wrapped count, larger than any string. -/
def talloc_strndup (s : List Char) (n : Option Nat) : List Char :=
  match n with
  | some k => s.take k
  | none => s

/-! ## Search -/

def png_pdf : List Char := ".png.pdf".toList

def jpeg_pdf : List Char := ".jpeg.pdf".toList

def svg_pdf : List Char := ".svg.pdf".toList

def uncrop_png_pdf : List Char := ".uncrop.png.pdf".toList

def uncrop_jpeg_pdf : List Char := ".uncrop.jpeg.pdf".toList

def uncrop_svg_pdf : List Char := ".uncrop.svg.pdf".toList

def inkscape_svg_pdf : List Char := ".inkscape.svg.pdf".toList

/-- `processor_imagemagick_search`.  The outer `Option` is `none` when one of
the suffix tests reads out of bounds; the inner one is the returned pointer
(`none` is `NULL`). -/
def processor_imagemagick_search (filename : List Char) :
    Option (Option processor_imagemagick) := do
  let fresh : processor_imagemagick := { crop := false, inkscape := false }
  let p : Option processor_imagemagick := none
  let p := if (← string_ends_with filename png_pdf) then some fresh else p
  let p := if (← string_ends_with filename jpeg_pdf) then some fresh else p
  let p := if (← string_ends_with filename svg_pdf) then some fresh else p
  match p with
  | none => pure none
  | some q =>
    let q := { q with crop := false }
    let q := { q with inkscape := false }
    let q := if (← string_ends_with filename uncrop_png_pdf) then { q with crop := true } else q
    let q := if (← string_ends_with filename uncrop_jpeg_pdf) then { q with crop := true } else q
    let q := if (← string_ends_with filename uncrop_svg_pdf) then { q with crop := true } else q
    let q := if (← string_ends_with filename inkscape_svg_pdf) then { q with inkscape := true } else q
    pure (some q)

/-! ## Process -/

/-- The marker searched by `process`. -/
def tek_cache : List Char := ".tek_cache/".toList

/-- The literal whose length `process` adds to the marker offset (spelled
with an `x` in the source; it has the same length as the marker). -/
def tex_cache : List Char := ".tex_cache/".toList

def bad_cachedir_msg : List Char := "Bad cachedir for image\n".toList

/-- The names `process` derives before it emits anything. -/
structure Names where
  infile : List Char
  cachedir : List Char
  cachename : List Char
  outname : List Char
  deriving DecidableEq, Repr

/-- The path derivation of `process` (from `cachedir = talloc_strdup(...)` to
the computation of `outname`), for a marker found at `cachedir_index`. -/
def derive_names (p : processor_imagemagick) (filename : List Char)
    (cachedir_index : Nat) : Option Names := do
  -- cachedir = talloc_strdup(c, filename); cachedir[index + strlen(".tex_cache/")] = 0
  let cachedir ← store_nul filename.length filename (cachedir_index + tex_cache.length)
  -- infile = talloc_strdup(c, filename); infile[index] = 0
  let infile ← store_nul filename.length filename cachedir_index
  -- strcat(infile, filename + strlen(cachedir))
  let infile ← strcat filename.length infile (filename.drop cachedir.length)
  -- infile[strlen(infile) - 4] = 0
  let infile ← (size_sub infile.length 4).bind (store_nul filename.length infile)
  -- cachedir = talloc_strndup(c, filename, basename_len(filename))
  let cachedir := talloc_strndup filename (some (basename_len filename))
  -- cachename = talloc_strndup(c, filename, strlen(filename) - 4)
  let cachename := talloc_strndup filename (size_sub filename.length 4)
  -- outname = filename, or "%s-tocrop.pdf" when cropping
  let outname := if p.crop then filename ++ "-tocrop.pdf".toList else filename
  pure { infile := infile, cachedir := cachedir, cachename := cachename, outname := outname }

/-- The text `echo -e "<tag>\t<infile>"` of a named command. -/
def echo_cmd (tag : String) (infile : List Char) : List Char :=
  "echo -e \"".toList ++ tag.toList ++ "\\t".toList ++ infile ++ "\"".toList

/-- The text `mkdir -p "<cachedir>" >& /dev/null || true`. -/
def mkdir_cmd (cachedir : List Char) : List Char :=
  "mkdir -p \"".toList ++ cachedir ++ "\" >& /dev/null || true".toList

/-- The text `convert "<infile>" "<outname>"`. -/
def convert_cmd (infile outname : List Char) : List Char :=
  "convert \"".toList ++ infile ++ "\" \"".toList ++ outname ++ "\"".toList

/-- The text `inkscape "<infile>" --export-pdf="<outname>" -D`. -/
def inkscape_cmd (infile outname : List Char) : List Char :=
  "inkscape \"".toList ++ infile ++ "\" --export-pdf=\"".toList ++ outname ++ "\" -D".toList

/-- The text `pdfcrop "<outname>" "<filename>" >& /dev/null`. -/
def pdfcrop_cmd (outname filename : List Char) : List Char :=
  "pdfcrop \"".toList ++ outname ++ "\" \"".toList ++ filename ++ "\" >& /dev/null".toList

/-- The text `cp "<infile>" "<cachename>"`. -/
def cp_cmd (infile cachename : List Char) : List Char :=
  "cp \"".toList ++ infile ++ "\" \"".toList ++ cachename ++ "\"".toList

/-- The emission part of `process`: the calls on the sink `m`, in order. -/
def emit (p : processor_imagemagick) (filename : List Char) (n : Names)
    (m : List MakeOp) : List MakeOp :=
  -- creates the target to build the image
  let m := makefile_create_target m n.outname
  let m := makefile_start_deps m
  let m := makefile_add_dep m n.cachename
  let m := makefile_end_deps m
  let m := makefile_start_cmds m
  let m :=
    if p.inkscape = false then
      let m := makefile_nam_cmd m (echo_cmd "CONVERT" n.infile)
      let m := makefile_add_cmd m (mkdir_cmd n.cachedir)
      makefile_add_cmd m (convert_cmd n.infile n.outname)
    else
      let m := makefile_nam_cmd m (echo_cmd "INKCONV" n.infile)
      let m := makefile_add_cmd m (mkdir_cmd n.cachedir)
      makefile_add_cmd m (inkscape_cmd n.infile n.outname)
  let m := makefile_end_cmds m
  -- if we crop the file, then just copy it back in place
  let m :=
    if p.crop then
      let m := makefile_create_target m filename
      let m := makefile_start_deps m
      let m := makefile_add_dep m n.outname
      let m := makefile_end_deps m
      let m := makefile_start_cmds m
      let m := makefile_nam_cmd m (echo_cmd "IMCROP" n.infile)
      let m := makefile_add_cmd m (mkdir_cmd n.cachedir)
      let m := makefile_add_cmd m (pdfcrop_cmd n.outname filename)
      makefile_end_cmds m
    else m
  -- this one is necessary for pandoc
  let m := makefile_create_target m n.cachename
  let m := makefile_start_deps m
  let m := makefile_add_dep m n.infile
  let m := makefile_end_deps m
  let m := makefile_start_cmds m
  let m := makefile_nam_cmd m (echo_cmd "IMGCP" n.infile)
  let m := makefile_add_cmd m (mkdir_cmd n.cachedir)
  let m := makefile_add_cmd m (cp_cmd n.infile n.cachename)
  makefile_end_cmds m

/-- `process`: the state after the call, or `none` when the path derivation
stores out of bounds. -/
def process (p : processor_imagemagick) (filename : List Char) (w : World) :
    Option World :=
  let cachedir_index := string_index filename tek_cache
  if cachedir_index = -1 then
    some { w with stderr := w.stderr ++ bad_cachedir_msg }
  else
    (derive_names p filename cachedir_index.toNat).map fun n =>
      { w with makefile := emit p filename n w.makefile }

/-! ## Predicates on filenames -/

/-- The filename carries one of the three suffixes that search looks for. -/
def Claimable (filename : List Char) : Prop :=
  png_pdf <:+ filename ∨ jpeg_pdf <:+ filename ∨ svg_pdf <:+ filename

/-- The filename carries `.uncrop.` right before the format suffix. -/
def Uncrop (filename : List Char) : Prop :=
  uncrop_png_pdf <:+ filename ∨ uncrop_jpeg_pdf <:+ filename ∨ uncrop_svg_pdf <:+ filename

instance (filename : List Char) : Decidable (Claimable filename) := by
  unfold Claimable; infer_instance

instance (filename : List Char) : Decidable (Uncrop filename) := by
  unfold Uncrop; infer_instance

/-! ## The fragment, block by block -/

/-- A command of a target: a named (label) command or a shell command. -/
inductive Cmd where
  | named (text : List Char)
  | plain (text : List Char)
  deriving DecidableEq, Repr

/-- The sink operation that adds the command. -/
def Cmd.op : Cmd → MakeOp
  | Cmd.named text => MakeOp.addNamedCmd text
  | Cmd.plain text => MakeOp.addCmd text

/-- One target with its dependencies and its commands. -/
structure Block where
  target : List Char
  deps : List (List Char)
  cmds : List Cmd
  deriving DecidableEq, Repr

/-- The operations of one target, in the order the sink requires:
`createTarget, startDeps, addDep*, endDeps, startCmds, (addNamedCmd | addCmd)*, endCmds`. -/
def Block.ops (b : Block) : List MakeOp :=
  [MakeOp.createTarget b.target, MakeOp.startDeps] ++ b.deps.map MakeOp.addDep ++
    [MakeOp.endDeps, MakeOp.startCmds] ++ b.cmds.map Cmd.op ++ [MakeOp.endCmds]

/-- The operations of a sequence of targets. -/
def blocks_ops (bs : List Block) : List MakeOp :=
  (bs.map Block.ops).flatten

/-- A sequence of sink operations is balanced when it is the operations of a
sequence of targets. -/
def Balanced (ops : List MakeOp) : Prop :=
  ∃ bs : List Block, ops = blocks_ops bs

/-- The target that converts the image. -/
def convert_block (p : processor_imagemagick) (n : Names) : Block :=
  { target := n.outname
    deps := [n.cachename]
    cmds := [Cmd.named (echo_cmd (if p.inkscape then "INKCONV" else "CONVERT") n.infile),
             Cmd.plain (mkdir_cmd n.cachedir),
             Cmd.plain (if p.inkscape then inkscape_cmd n.infile n.outname
                        else convert_cmd n.infile n.outname)] }

/-- The target that crops the converted image back into `filename`. -/
def crop_block (filename : List Char) (n : Names) : Block :=
  { target := filename
    deps := [n.outname]
    cmds := [Cmd.named (echo_cmd "IMCROP" n.infile),
             Cmd.plain (mkdir_cmd n.cachedir),
             Cmd.plain (pdfcrop_cmd n.outname filename)] }

/-- The target that copies the source image into the cache. -/
def copy_block (n : Names) : Block :=
  { target := n.cachename
    deps := [n.infile]
    cmds := [Cmd.named (echo_cmd "IMGCP" n.infile),
             Cmd.plain (mkdir_cmd n.cachedir),
             Cmd.plain (cp_cmd n.infile n.cachename)] }

/-- The targets of one fragment. -/
def fragment_blocks (p : processor_imagemagick) (filename : List Char) (n : Names) :
    List Block :=
  [convert_block p n] ++ (if p.crop then [crop_block filename n] else []) ++ [copy_block n]

/-- The names `process` derives, written out, for a marker at offset `k`. -/
def names_at (p : processor_imagemagick) (filename : List Char) (k : Nat) : Names :=
  { infile := (filename.take k ++ filename.drop (k + 11)).take (filename.length - 11 - 4)
    cachedir := filename.take (basename_len filename)
    cachename := filename.take (filename.length - 4)
    outname := if p.crop then filename ++ "-tocrop.pdf".toList else filename }

/-! ## The order the sink requires -/

/-- Where the sink stands between two operations. -/
inductive SinkState where
  | idle
  | created
  | inDeps
  | depsClosed
  | inCmds
  deriving DecidableEq, Repr

/-- One operation, allowed or not in the state the sink is in:
`create target → start deps → (add dep)* → end deps → start cmds →
(add cmd | add named cmd)* → end cmds`. -/
def sink_step : SinkState → MakeOp → Option SinkState
  | SinkState.idle, MakeOp.createTarget _ => some SinkState.created
  | SinkState.created, MakeOp.startDeps => some SinkState.inDeps
  | SinkState.inDeps, MakeOp.addDep _ => some SinkState.inDeps
  | SinkState.inDeps, MakeOp.endDeps => some SinkState.depsClosed
  | SinkState.depsClosed, MakeOp.startCmds => some SinkState.inCmds
  | SinkState.inCmds, MakeOp.addNamedCmd _ => some SinkState.inCmds
  | SinkState.inCmds, MakeOp.addCmd _ => some SinkState.inCmds
  | SinkState.inCmds, MakeOp.endCmds => some SinkState.idle
  | _, _ => none

/-- Runs a sequence of operations from a state; `none` at the first operation
that is out of order. -/
def sink_run : SinkState → List MakeOp → Option SinkState
  | st, [] => some st
  | st, op :: ops =>
    match sink_step st op with
    | some st2 => sink_run st2 ops
    | none => none

/-- The sequence is in order from start to end and leaves no target open. -/
def sink_accepts (ops : List MakeOp) : Bool :=
  decide (sink_run SinkState.idle ops = some SinkState.idle)

/-! ## The fragment of one call -/

/-- The operations one call of `process` adds to the sink, as a function of
the claim and the filename alone: nothing without the marker, else the targets
built from the names derived at the offset `string_index` returns. -/
def fragment_ops (p : processor_imagemagick) (filename : List Char) : List MakeOp :=
  if string_index filename tek_cache = -1 then []
  else blocks_ops (fragment_blocks p filename
    (names_at p filename (string_index filename tek_cache).toNat))

/-- What one call of `process` writes to standard error. -/
def error_text (filename : List Char) : List Char :=
  if string_index filename tek_cache = -1 then bad_cachedir_msg else []

/-! ## Lemmas about the string helpers -/

theorem strncmp_eq_iff (x b : List Char) :
    strncmp_eq x b b.length = true ↔ b <+: x := by
  simp only [strncmp_eq, List.take_length, decide_eq_true_eq, List.prefix_iff_eq_take]
  exact eq_comm

/-- What the loop of `string_index` returns, started at offset `i` on `a`. -/
theorem string_index_loop_spec (b : List Char) :
    ∀ (a : List Char) (i : Nat),
      (string_index_loop b a i = -1 ∧ ∀ j, j < a.length → ¬ b <+: a.drop j) ∨
      (∃ k, k < a.length ∧ string_index_loop b a i = ((i + k : Nat) : Int) ∧
        b <+: a.drop k ∧ ∀ j, j < k → ¬ b <+: a.drop j) := by
  intro a
  induction a with
  | nil =>
    intro i
    left
    exact ⟨rfl, fun j hj => absurd hj (Nat.not_lt_zero j)⟩
  | cons c rest ih =>
    intro i
    by_cases h : strncmp_eq (c :: rest) b b.length = true
    · right
      refine ⟨0, by simp, ?_, ?_, ?_⟩
      · simp [string_index_loop, h]
      · simpa using (strncmp_eq_iff _ _).mp h
      · intro j hj
        exact absurd hj (Nat.not_lt_zero j)
    · have hstep : string_index_loop b (c :: rest) i = string_index_loop b rest (i + 1) := by
        simp [string_index_loop, h]
      have h0 : ¬ b <+: c :: rest := fun hp => h ((strncmp_eq_iff _ _).mpr hp)
      rcases ih (i + 1) with ⟨h1, h2⟩ | ⟨k, hk, h1, h2, h3⟩
      · left
        refine ⟨by rw [hstep, h1], ?_⟩
        intro j hj
        cases j with
        | zero => simpa using h0
        | succ j =>
          simpa using h2 j (by simpa using hj)
      · right
        refine ⟨k + 1, by simpa using hk, ?_, by simpa using h2, ?_⟩
        · rw [hstep, h1]
          congr 1
          omega
        · intro j hj
          cases j with
          | zero => simpa using h0
          | succ j => simpa using h3 j (by omega)

/-- An occurrence of a non-empty `b` at offset `k` of `a` lies inside `a`. -/
theorem occurrence_bound {a b : List Char} {k : Nat} (hb : b ≠ [])
    (h : b <+: a.drop k) : k + b.length ≤ a.length := by
  have hl := h.length_le
  rw [List.length_drop] at hl
  have hpos : 0 < b.length := List.length_pos.mpr hb
  omega

/-- `b` occurs in `a` exactly when it starts `a` at some offset. -/
theorem occurs_iff (a b : List Char) : b <:+: a ↔ ∃ k, b <+: a.drop k := by
  constructor
  · rintro ⟨s, t, rfl⟩
    refine ⟨s.length, t, ?_⟩
    simp [List.append_assoc]
  · rintro ⟨k, t, ht⟩
    refine ⟨a.take k, t, ?_⟩
    rw [List.append_assoc, ht, List.take_append_drop]

theorem string_index_eq_neg_one_iff (a b : List Char) (hb : b ≠ []) :
    string_index a b = -1 ↔ ¬ b <:+: a := by
  unfold string_index
  rw [occurs_iff]
  rcases string_index_loop_spec b a 0 with ⟨h1, h2⟩ | ⟨k, hk, h1, h2, h3⟩
  · simp only [h1, true_iff, not_exists]
    intro j hj
    have := occurrence_bound hb hj
    have hpos : 0 < b.length := List.length_pos.mpr hb
    exact h2 j (by omega) hj
  · constructor
    · intro h
      rw [h1] at h
      omega
    · intro h
      exact absurd ⟨k, h2⟩ h

/-- When `b` occurs in `a`, `string_index` returns its first offset. -/
theorem string_index_found (a b : List Char) (hb : b ≠ []) (h : b <:+: a) :
    ∃ k : Nat, string_index a b = (k : Int) ∧ k + b.length ≤ a.length ∧
      b <+: a.drop k ∧ ∀ j, j < k → ¬ b <+: a.drop j := by
  have hne : string_index a b ≠ -1 := fun e => (string_index_eq_neg_one_iff a b hb).mp e h
  unfold string_index at hne ⊢
  rcases string_index_loop_spec b a 0 with ⟨h1, _⟩ | ⟨k, _, h1, h2, h3⟩
  · exact absurd h1 hne
  · exact ⟨k, by simpa using h1, occurrence_bound hb h2, h2, h3⟩

/-- The first occurrence is unique: an offset `k` at which `b` occurs and
before which it does not is the one `string_index` returns. -/
theorem string_index_of_first (a b : List Char) (hb : b ≠ []) (k : Nat)
    (hk : b <+: a.drop k) (hfirst : ∀ j, j < k → ¬ b <+: a.drop j) :
    string_index a b = (k : Int) := by
  obtain ⟨k', e, _, h2, h3⟩ := string_index_found a b hb ((occurs_iff a b).mpr ⟨k, hk⟩)
  rw [e]
  have h1 : ¬ k' < k := fun hlt => hfirst k' hlt h2
  have h2' : ¬ k < k' := fun hlt => h3 k hlt hk
  congr 1
  omega

/-! ## Lemmas about search -/

/-- In range, `string_ends_with` is the suffix test. -/
theorem string_ends_with_of_le (s e : List Char) (h : e.length ≤ s.length) :
    string_ends_with s e = some (decide (e <:+ s)) := by
  unfold string_ends_with
  rw [if_pos h]
  congr 1
  simp only [decide_eq_decide]
  rw [List.suffix_iff_eq_drop]
  exact eq_comm

/-- Out of range, `string_ends_with` is undefined. -/
theorem string_ends_with_of_lt (s e : List Char) (h : s.length < e.length) :
    string_ends_with s e = none := by
  unfold string_ends_with
  rw [if_neg (by omega)]

/-- On a filename of at least 17 characters every suffix test of search is in
range, and search is the suffix grammar. -/
theorem search_of_long (filename : List Char) (h : 17 ≤ filename.length) :
    processor_imagemagick_search filename =
      some (if Claimable filename then
        some { crop := decide (Uncrop filename),
               inkscape := decide (inkscape_svg_pdf <:+ filename) }
      else none) := by
  have l1 : png_pdf.length = 8 := rfl
  have l2 : jpeg_pdf.length = 9 := rfl
  have l3 : svg_pdf.length = 8 := rfl
  have l4 : uncrop_png_pdf.length = 15 := rfl
  have l5 : uncrop_jpeg_pdf.length = 16 := rfl
  have l6 : uncrop_svg_pdf.length = 15 := rfl
  have l7 : inkscape_svg_pdf.length = 17 := rfl
  unfold processor_imagemagick_search
  rw [string_ends_with_of_le filename png_pdf (by omega),
    string_ends_with_of_le filename jpeg_pdf (by omega),
    string_ends_with_of_le filename svg_pdf (by omega),
    string_ends_with_of_le filename uncrop_png_pdf (by omega),
    string_ends_with_of_le filename uncrop_jpeg_pdf (by omega),
    string_ends_with_of_le filename uncrop_svg_pdf (by omega),
    string_ends_with_of_le filename inkscape_svg_pdf (by omega)]
  unfold Claimable Uncrop
  by_cases a1 : png_pdf <:+ filename <;> by_cases a2 : jpeg_pdf <:+ filename <;>
    by_cases a3 : svg_pdf <:+ filename <;> by_cases c1 : uncrop_png_pdf <:+ filename <;>
    by_cases c2 : uncrop_jpeg_pdf <:+ filename <;> by_cases c3 : uncrop_svg_pdf <:+ filename <;>
    by_cases i1 : inkscape_svg_pdf <:+ filename <;>
    simp [a1, a2, a3, c1, c2, c3, i1]

/-- A filename that search claims has at least 17 characters: shorter ones
make the `.inkscape.svg.pdf` test read out of bounds. -/
theorem length_of_search_claim (filename : List Char) (p : processor_imagemagick)
    (h : processor_imagemagick_search filename = some (some p)) :
    17 ≤ filename.length := by
  by_contra hlt
  have hi : string_ends_with filename inkscape_svg_pdf = none :=
    string_ends_with_of_lt _ _ (by
      have l7 : inkscape_svg_pdf.length = 17 := rfl
      omega)
  unfold processor_imagemagick_search at h
  rw [hi] at h
  cases h1 : string_ends_with filename png_pdf <;>
    cases h2 : string_ends_with filename jpeg_pdf <;>
    cases h3 : string_ends_with filename svg_pdf <;>
    cases h4 : string_ends_with filename uncrop_png_pdf <;>
    cases h5 : string_ends_with filename uncrop_jpeg_pdf <;>
    cases h6 : string_ends_with filename uncrop_svg_pdf <;>
    simp [h1, h2, h3, h4, h5, h6] at h
  all_goals (split at h <;> simp at h)

/-! ## Lemmas about process -/

theorem emit_eq (p : processor_imagemagick) (filename : List Char) (n : Names)
    (m : List MakeOp) :
    emit p filename n m = m ++ blocks_ops (fragment_blocks p filename n) := by
  obtain ⟨crop, inkscape⟩ := p
  cases crop <;> cases inkscape <;>
    simp [emit, blocks_ops, fragment_blocks, Block.ops, convert_block, crop_block,
      copy_block, Cmd.op, makefile_create_target, makefile_start_deps, makefile_add_dep,
      makefile_end_deps, makefile_start_cmds, makefile_nam_cmd, makefile_add_cmd,
      makefile_end_cmds]

theorem tek_cache_length : tek_cache.length = 11 := rfl

theorem tek_cache_ne_nil : tek_cache ≠ [] := by decide

/-- With the marker inside the filename and at least 4 more characters, the
path derivation is in range throughout. -/
theorem derive_names_of_long (p : processor_imagemagick) (filename : List Char) (k : Nat)
    (hk : k + 11 ≤ filename.length) (hlen : 15 ≤ filename.length) :
    derive_names p filename k = some (names_at p filename k) := by
  have ht : tex_cache.length = 11 := rfl
  have h1 : min k filename.length = k := by omega
  have h2 : min (k + 11) filename.length = k + 11 := by omega
  simp only [derive_names, store_nul, strcat, size_sub, talloc_strndup, names_at, ht,
    bind, Option.bind, pure, if_pos hk, List.length_take, List.length_drop,
    List.length_append, h1, h2]
  have h3 : k + (filename.length - (k + 11)) ≤ filename.length := by omega
  have h4 : 4 ≤ k + (filename.length - (k + 11)) := by omega
  have h5 : 4 ≤ filename.length := by omega
  have h6 : k ≤ filename.length := by omega
  have h7 : k + (filename.length - (k + 11)) - 4 = filename.length - 11 - 4 := by omega
  have h8 : filename.length - 11 - 4 ≤ filename.length := by omega
  simp [h3, h4, h5, h6, h7, h8, store_nul]

/-- With the marker inside the filename and fewer than 4 more characters, the
store at `strlen(infile) - 4` is out of range. -/
theorem derive_names_of_short (p : processor_imagemagick) (filename : List Char) (k : Nat)
    (hk : k + 11 ≤ filename.length) (hlen : filename.length < 15) :
    derive_names p filename k = none := by
  have ht : tex_cache.length = 11 := rfl
  have h1 : min k filename.length = k := by omega
  have h2 : min (k + 11) filename.length = k + 11 := by omega
  simp only [derive_names, store_nul, strcat, size_sub, ht,
    bind, Option.bind, if_pos hk, List.length_take, List.length_drop,
    List.length_append, h1, h2]
  have h3 : k + (filename.length - (k + 11)) ≤ filename.length := by omega
  have h4 : ¬ 4 ≤ k + (filename.length - (k + 11)) := by omega
  have h6 : k ≤ filename.length := by omega
  simp [h3, h4, h6]

/-- Without the marker, `process` reports the error and leaves the sink alone. -/
theorem process_of_no_marker (p : processor_imagemagick) (filename : List Char) (w : World)
    (h : ¬ tek_cache <:+: filename) :
    process p filename w = some { w with stderr := w.stderr ++ bad_cachedir_msg } := by
  have e := (string_index_eq_neg_one_iff filename tek_cache tek_cache_ne_nil).mpr h
  simp [process, e]

/-- With the marker and at least 15 characters, `process` appends the
fragment built from the derived names. -/
theorem process_of_marker (p : processor_imagemagick) (filename : List Char) (w : World)
    (h : tek_cache <:+: filename) (hlen : 15 ≤ filename.length) :
    ∃ k : Nat, string_index filename tek_cache = (k : Int) ∧
      k + 11 ≤ filename.length ∧
      tek_cache <+: filename.drop k ∧ (∀ j, j < k → ¬ tek_cache <+: filename.drop j) ∧
      process p filename w =
        some { w with makefile :=
          w.makefile ++ blocks_ops (fragment_blocks p filename (names_at p filename k)) } := by
  obtain ⟨k, e, hk, h2, h3⟩ := string_index_found filename tek_cache tek_cache_ne_nil h
  rw [tek_cache_length] at hk
  refine ⟨k, e, hk, h2, h3, ?_⟩
  have hne : (k : Int) ≠ -1 := by omega
  simp [process, e, hne, derive_names_of_long p filename k hk hlen, emit_eq]

/-- With the marker and fewer than 15 characters, `process` stores out of
range before it emits anything. -/
theorem process_of_short (p : processor_imagemagick) (filename : List Char) (w : World)
    (h : tek_cache <:+: filename) (hlen : filename.length < 15) :
    process p filename w = none := by
  obtain ⟨k, e, hk, _, _⟩ := string_index_found filename tek_cache tek_cache_ne_nil h
  rw [tek_cache_length] at hk
  have hne : (k : Int) ≠ -1 := by omega
  simp [process, e, hne, derive_names_of_short p filename k hk hlen]

/-- The names `process` works with, for a filename with the marker and at
least 15 characters: the derivation at the offset `string_index` returns
succeeds, and `process` appends the fragment built from its result. -/
theorem process_fragment (p : processor_imagemagick) (filename : List Char) (w : World)
    (h : tek_cache <:+: filename) (hlen : 15 ≤ filename.length) :
    ∃ n : Names,
      derive_names p filename (string_index filename tek_cache).toNat = some n ∧
      n.cachedir = filename.take (basename_len filename) ∧
      n.outname = (if p.crop then filename ++ "-tocrop.pdf".toList else filename) ∧
      process p filename w =
        some { w with makefile :=
          w.makefile ++ blocks_ops (fragment_blocks p filename n) } := by
  obtain ⟨k, e, hk, _, _, hp⟩ := process_of_marker p filename w h hlen
  refine ⟨names_at p filename k, ?_, rfl, rfl, hp⟩
  rw [e]
  exact derive_names_of_long p filename k hk hlen

/-! ## Lemmas about the order of the sink -/

theorem sink_run_deps (deps : List (List Char)) (rest : List MakeOp) :
    sink_run SinkState.inDeps (deps.map MakeOp.addDep ++ rest) =
      sink_run SinkState.inDeps rest := by
  induction deps with
  | nil => rfl
  | cons d ds ih => simpa [sink_run, sink_step] using ih

theorem sink_run_cmds (cmds : List Cmd) (rest : List MakeOp) :
    sink_run SinkState.inCmds (cmds.map Cmd.op ++ rest) =
      sink_run SinkState.inCmds rest := by
  induction cmds with
  | nil => rfl
  | cons c cs ih =>
    cases c <;> simpa [sink_run, sink_step, Cmd.op] using ih

theorem sink_run_block (b : Block) (rest : List MakeOp) :
    sink_run SinkState.idle (b.ops ++ rest) = sink_run SinkState.idle rest := by
  have e : b.ops ++ rest =
      MakeOp.createTarget b.target :: MakeOp.startDeps ::
        (b.deps.map MakeOp.addDep ++ (MakeOp.endDeps :: MakeOp.startCmds ::
          (b.cmds.map Cmd.op ++ (MakeOp.endCmds :: rest)))) := by
    simp [Block.ops]
  rw [e]
  simp only [sink_run, sink_step]
  rw [sink_run_deps]
  simp only [sink_run, sink_step]
  rw [sink_run_cmds]
  simp only [sink_run, sink_step]

theorem sink_accepts_blocks (bs : List Block) : sink_accepts (blocks_ops bs) = true := by
  simp only [sink_accepts, decide_eq_true_eq]
  induction bs with
  | nil => rfl
  | cons b bs ih =>
    have e : blocks_ops (b :: bs) = b.ops ++ blocks_ops bs := by
      simp [blocks_ops]
    rw [e, sink_run_block, ih]

/-! ## Lemmas about the directory of the mkdir commands -/

/-- Past the last `/` the loop of `basename_len` walks back to it. -/
theorem basename_len_loop_last (dir base : List Char) (hbase : '/' ∉ base) :
    ∀ m, m ≤ base.length →
      basename_len_loop (dir ++ '/' :: base) (dir.length + 1 + m) = dir.length := by
  intro m
  induction m with
  | zero =>
    intro _
    have hget : (dir ++ '/' :: base).get? dir.length = some '/' := by
      rw [List.get?_eq_getElem?, List.getElem?_append_right (Nat.le_refl _)]
      simp
    show basename_len_loop (dir ++ '/' :: base) (dir.length + 1) = dir.length
    rw [basename_len_loop, if_pos hget]
  | succ m ih =>
    intro hm
    have hget : (dir ++ '/' :: base).get? (dir.length + 1 + m) = base.get? m := by
      rw [List.get?_eq_getElem?, List.get?_eq_getElem?, List.getElem?_append_right (by omega)]
      have e : dir.length + 1 + m - dir.length = m + 1 := by omega
      rw [e]
      simp
    have hne : base.get? m ≠ some '/' := by
      intro he
      exact hbase (List.get?_mem he)
    have e2 : dir.length + 1 + (m + 1) = (dir.length + 1 + m) + 1 := by omega
    rw [e2, basename_len_loop, hget, if_neg hne]
    exact ih (by omega)

/-- `basename_len` is the length of what stands before the last `/`. -/
theorem basename_len_last (dir base : List Char) (hbase : '/' ∉ base) :
    basename_len (dir ++ '/' :: base) = dir.length := by
  unfold basename_len
  have e : (dir ++ '/' :: base).length = dir.length + 1 + base.length := by
    simp
    omega
  rw [e]
  exact basename_len_loop_last dir base hbase base.length (Nat.le_refl _)

/-- A string with a `/` splits at its last `/`. -/
theorem exists_last_slash :
    ∀ l : List Char, '/' ∈ l → ∃ dir base, l = dir ++ '/' :: base ∧ '/' ∉ base := by
  intro l
  induction l with
  | nil => intro h; simp at h
  | cons c t ih =>
    intro h
    by_cases ht : '/' ∈ t
    · obtain ⟨d, b, e, hb⟩ := ih ht
      exact ⟨c :: d, b, by rw [e]; rfl, hb⟩
    · have hc : c = '/' := by
        rcases List.mem_cons.mp h with h1 | h1
        · exact h1.symm
        · exact absurd h1 ht
      exact ⟨[], t, by rw [hc]; rfl, ht⟩

theorem mkdir_cmd_injective (d1 d2 : List Char) (h : mkdir_cmd d1 = mkdir_cmd d2) :
    d1 = d2 := by
  unfold mkdir_cmd at h
  exact List.append_cancel_left (List.append_cancel_right h)

theorem mkdir_cmd_head (d : List Char) : (mkdir_cmd d).head? = some 'm' := rfl

theorem convert_cmd_head (a b : List Char) : (convert_cmd a b).head? = some 'c' := rfl

theorem inkscape_cmd_head (a b : List Char) : (inkscape_cmd a b).head? = some 'i' := rfl

theorem pdfcrop_cmd_head (a b : List Char) : (pdfcrop_cmd a b).head? = some 'p' := rfl

theorem cp_cmd_head (a b : List Char) : (cp_cmd a b).head? = some 'c' := rfl

/-- In every target of a fragment, the mkdir commands are the one for
`n.cachedir`, and there is one. -/
theorem fragment_mkdir (p : processor_imagemagick) (filename : List Char) (n : Names)
    (b : Block) (hb : b ∈ fragment_blocks p filename n) :
    Cmd.plain (mkdir_cmd n.cachedir) ∈ b.cmds ∧
      ∀ d, Cmd.plain (mkdir_cmd d) ∈ b.cmds → d = n.cachedir := by
  have key : ∀ (x : List Char) (c : Char), x.head? = some c → c ≠ 'm' →
      ∀ d, x ≠ mkdir_cmd d := by
    intro x c hx hc d e
    rw [e, mkdir_cmd_head] at hx
    exact hc (Option.some.inj hx).symm
  have hconv := fun d => key _ 'c' (convert_cmd_head n.infile n.outname) (by decide) d
  have hink := fun d => key _ 'i' (inkscape_cmd_head n.infile n.outname) (by decide) d
  have hcrop := fun d => key _ 'p' (pdfcrop_cmd_head n.outname filename) (by decide) d
  have hcp := fun d => key _ 'c' (cp_cmd_head n.infile n.cachename) (by decide) d
  simp only [fragment_blocks, List.mem_append, List.mem_singleton] at hb
  rcases hb with (hb | hb) | hb
  · subst hb
    refine ⟨by simp [convert_block], ?_⟩
    intro d hd
    simp only [convert_block, List.mem_cons, Cmd.plain.injEq, List.mem_singleton,
      List.not_mem_nil, or_false] at hd
    rcases hd with hd | hd | hd
    · cases hd
    · exact mkdir_cmd_injective _ _ hd
    · split at hd
      · exact absurd hd.symm (hink d)
      · exact absurd hd.symm (hconv d)
  · split at hb
    · simp only [List.mem_singleton] at hb
      subst hb
      refine ⟨by simp [crop_block], ?_⟩
      intro d hd
      simp only [crop_block, List.mem_cons, Cmd.plain.injEq, List.mem_singleton,
        List.not_mem_nil, or_false] at hd
      rcases hd with hd | hd | hd
      · cases hd
      · exact mkdir_cmd_injective _ _ hd
      · exact absurd hd.symm (hcrop d)
    · simp at hb
  · subst hb
    refine ⟨by simp [copy_block], ?_⟩
    intro d hd
    simp only [copy_block, List.mem_cons, Cmd.plain.injEq, List.mem_singleton,
      List.not_mem_nil, or_false] at hd
    rcases hd with hd | hd | hd
    · cases hd
    · exact mkdir_cmd_injective _ _ hd
    · exact absurd hd.symm (hcp d)

/-- The directory of the mkdir commands is not the marker-based cachedir that
`process` computes first: for `a.tek_cache/b/c.png.pdf` the first is
`a.tek_cache/b`, the second `a.tek_cache/`. -/
theorem cachedir_is_second_derivation :
    (names_at { crop := false, inkscape := false } "a.tek_cache/b/c.png.pdf".toList 1).cachedir =
        "a.tek_cache/b".toList ∧
      store_nul "a.tek_cache/b/c.png.pdf".toList.length "a.tek_cache/b/c.png.pdf".toList
        (1 + tex_cache.length) = some "a.tek_cache/".toList := by
  decide

/-! ## Lemmas about the marker inside a claimed filename -/

/-- A filename splits around an occurrence of the marker. -/
theorem split_at_marker (filename : List Char) (k : Nat)
    (hk : tek_cache <+: filename.drop k) :
    filename = filename.take k ++ (tek_cache ++ filename.drop (k + 11)) := by
  obtain ⟨t, ht⟩ := hk
  have hd : filename.drop (k + 11) = t := by
    rw [← List.drop_drop, ← ht]
    exact List.drop_left' tek_cache_length
  rw [hd, ht, List.take_append_drop]

/-- A suffix without `/` of a filename lies wholly after the marker. -/
theorem suffix_after_marker (filename s : List Char) (k : Nat)
    (hk : tek_cache <+: filename.drop k) (hs : s <:+ filename) (hslash : '/' ∉ s) :
    s <:+ filename.drop (k + 11) := by
  have hsplit := split_at_marker filename k hk
  have hpost : filename.drop (k + 11) <:+ filename := List.drop_suffix _ _
  by_cases hl : s.length ≤ (filename.drop (k + 11)).length
  · exact List.suffix_of_suffix_length_le hs hpost hl
  · exfalso
    obtain ⟨t, ht⟩ := List.suffix_of_suffix_length_le hpost hs (by omega)
    obtain ⟨u, hu⟩ := hs
    have hlen : 0 < t.length := by
      have := congrArg List.length ht
      rw [List.length_append] at this
      omega
    have e1 : (u ++ t) ++ filename.drop (k + 11) =
        (filename.take k ++ ".tek_cache".toList ++ ['/']) ++ filename.drop (k + 11) := by
      rw [List.append_assoc, ht, hu]
      conv_lhs => rw [hsplit]
      simp [tek_cache]
    have e2 := List.append_cancel_right e1
    rcases List.eq_nil_or_concat t with h0 | ⟨t2, c, hc⟩
    · rw [h0] at hlen
      simp at hlen
    · rw [hc, List.concat_eq_append, ← List.append_assoc] at e2
      have e3 := (List.append_inj' e2 rfl).2
      have hcs : c = '/' := by simpa using e3
      apply hslash
      rw [← ht, hc, hcs]
      simp

/-- The filename that search claims carries one of the three suffixes. -/
theorem claimable_of_search_claim (filename : List Char) (p : processor_imagemagick)
    (h : processor_imagemagick_search filename = some (some p)) : Claimable filename := by
  have hl := length_of_search_claim filename p h
  rw [search_of_long filename hl] at h
  by_contra hc
  rw [if_neg hc] at h
  simp at h

/-- Cutting the last 4 characters off `y ++ e`, with `e` of 4 characters. -/
theorem take_strip4 (y e : List Char) (he : e.length = 4) :
    (y ++ e).take ((y ++ e).length - 4) = y := by
  apply List.take_left'
  rw [List.length_append]
  omega

/-- A `/` at index `i` of a string is at or before `basename_len`. -/
theorem le_basename_len_of_slash (filename : List Char) (i : Nat)
    (hi : filename.get? i = some '/') : i ≤ basename_len filename := by
  obtain ⟨dir, base, e, hbase⟩ := exists_last_slash filename (List.get?_mem hi)
  have hbl : basename_len filename = dir.length := by
    rw [e]
    exact basename_len_last dir base hbase
  rw [hbl]
  by_contra hlt
  apply hbase
  rw [e, List.get?_eq_getElem?, List.getElem?_append_right (by omega)] at hi
  have e2 : i - dir.length = (i - dir.length - 1) + 1 := by omega
  rw [e2, List.getElem?_cons_succ] at hi
  exact List.get?_mem (by rw [List.get?_eq_getElem?]; exact hi)

/-- The last character of an occurrence of the marker is a `/`. -/
theorem slash_of_marker (filename : List Char) (k : Nat)
    (hk : tek_cache <+: filename.drop k) : filename.get? (k + 10) = some '/' := by
  have hsplit := split_at_marker filename k hk
  have hkl := occurrence_bound tek_cache_ne_nil hk
  rw [tek_cache_length] at hkl
  rw [hsplit, List.get?_eq_getElem?, List.getElem?_append_right (by simp)]
  have e : k + 10 - (filename.take k).length = 10 := by
    simp
    omega
  rw [e]
  simp [tek_cache]

/-- For a filename with the marker at `k` that ends with `fmt ++ ".pdf"`
(no `/` in it), the two strips of `process` remove exactly `.pdf`. -/
theorem strip_of_suffix (p : processor_imagemagick) (filename fmt : List Char) (k : Nat)
    (hk : tek_cache <+: filename.drop k)
    (hs : fmt ++ ".pdf".toList <:+ filename) (hslash : '/' ∉ fmt ++ ".pdf".toList) :
    (names_at p filename k).infile ++ ".pdf".toList =
        filename.take k ++ filename.drop (k + 11) ∧
      fmt <:+ (names_at p filename k).infile ∧
      (names_at p filename k).cachename ++ ".pdf".toList = filename := by
  have hkl := occurrence_bound tek_cache_ne_nil hk
  rw [tek_cache_length] at hkl
  obtain ⟨x, hx⟩ := suffix_after_marker filename _ k hk hs hslash
  have hsplice : filename.take k ++ filename.drop (k + 11) =
      (filename.take k ++ x ++ fmt) ++ ".pdf".toList := by
    rw [← hx]
    simp [List.append_assoc]
  have hlen : filename.length - 11 - 4 =
      ((filename.take k ++ x ++ fmt) ++ ".pdf".toList).length - 4 := by
    rw [← hsplice]
    simp only [List.length_append, List.length_take, List.length_drop]
    omega
  have hin : (names_at p filename k).infile = filename.take k ++ x ++ fmt := by
    show (filename.take k ++ filename.drop (k + 11)).take (filename.length - 11 - 4) = _
    rw [hlen, hsplice]
    exact take_strip4 _ _ rfl
  obtain ⟨u, hu⟩ := hs
  have hfile : filename = (u ++ fmt) ++ ".pdf".toList := by
    rw [← hu]
    simp [List.append_assoc]
  have hcache : (names_at p filename k).cachename = u ++ fmt := by
    show filename.take (filename.length - 4) = _
    conv_lhs => rw [hfile]
    exact take_strip4 _ _ rfl
  refine ⟨?_, ?_, ?_⟩
  · rw [hin, hsplice]
  · rw [hin]
    exact ⟨filename.take k ++ x, rfl⟩
  · rw [hcache]
    exact hfile.symm

/-! ## Lemmas about the fragment of one call -/

/-- Wherever `process` is defined, its effect is to append `fragment_ops` to
the sink and `error_text` to standard error. -/
theorem process_eq_append (p : processor_imagemagick) (filename : List Char) (w : World)
    (hdom : ¬ tek_cache <:+: filename ∨ 15 ≤ filename.length) :
    process p filename w =
      some { makefile := w.makefile ++ fragment_ops p filename,
             stderr := w.stderr ++ error_text filename } := by
  by_cases h : tek_cache <:+: filename
  · have hlen : 15 ≤ filename.length := hdom.resolve_left (not_not.mpr h)
    obtain ⟨k, e, _, _, _, hp⟩ := process_of_marker p filename w h hlen
    have hne : (k : Int) ≠ -1 := by omega
    rw [hp]
    simp [fragment_ops, error_text, e, hne]
  · have e := (string_index_eq_neg_one_iff filename tek_cache tek_cache_ne_nil).mpr h
    rw [process_of_no_marker p filename w h]
    simp [fragment_ops, error_text, e]

theorem bad_cachedir_msg_ne_nil : bad_cachedir_msg ≠ [] := by decide

/-- The lengths of the names derived for a marker at `k`. -/
theorem names_at_lengths (p : processor_imagemagick) (filename : List Char) (k : Nat)
    (hk : k + 11 ≤ filename.length) (hlen : 15 ≤ filename.length) :
    (names_at p filename k).infile.length = filename.length - 15 ∧
      (names_at p filename k).cachename.length = filename.length - 4 ∧
      (names_at p filename k).outname.length =
        (if p.crop then filename.length + 11 else filename.length) := by
  refine ⟨?_, ?_, ?_⟩
  · simp only [names_at, List.length_take, List.length_append, List.length_drop]
    omega
  · simp only [names_at, List.length_take]
    omega
  · simp only [names_at]
    split
    · rw [List.length_append]
      rfl
    · rfl

/-- Two suffixes that search looks for cannot both be `.uncrop.` and
`.inkscape.` suffixes of one filename. -/
theorem not_uncrop_and_inkscape (filename : List Char) (hu : Uncrop filename)
    (hi : inkscape_svg_pdf <:+ filename) : False := by
  have key : ∀ s : List Char, s <:+ filename → s.length ≤ inkscape_svg_pdf.length →
      s <:+ inkscape_svg_pdf := fun s hs hl => List.suffix_of_suffix_length_le hs hi hl
  rcases hu with h | h | h
  · exact absurd (key _ h (by decide)) (by decide)
  · exact absurd (key _ h (by decide)) (by decide)
  · exact absurd (key _ h (by decide)) (by decide)

/-! ## The claims -/

/-- C1. Search does not return NULL for every filename outside the suffix
grammar: on the empty filename the first suffix test already reads before the
start of the string, and on the 9-character `a.png.pdf` (which carries a
claimed suffix) the `.uncrop.png.pdf` test does; in both cases the result of
search is undefined. -/
theorem search_undefined_on_short_filename :
    processor_imagemagick_search "".toList = none ∧
      processor_imagemagick_search "a.png.pdf".toList = none := by
  decide

/-- C2. For a filename that search claims, crop is set exactly when the
filename ends with `.uncrop.png.pdf`, `.uncrop.jpeg.pdf` or `.uncrop.svg.pdf`,
and inkscape is set exactly when it ends with `.inkscape.svg.pdf`. -/
theorem search_flags (filename : List Char) (p : processor_imagemagick)
    (h : processor_imagemagick_search filename = some (some p)) :
    (p.crop = true ↔
        (uncrop_png_pdf <:+ filename ∨ uncrop_jpeg_pdf <:+ filename ∨
          uncrop_svg_pdf <:+ filename)) ∧
      (p.inkscape = true ↔ inkscape_svg_pdf <:+ filename) := by
  have hl := length_of_search_claim filename p h
  rw [search_of_long filename hl] at h
  by_cases hc : Claimable filename
  · rw [if_pos hc] at h
    simp only [Option.some.injEq] at h
    subst h
    simp [Uncrop]
  · rw [if_neg hc] at h
    simp at h

theorem search_flags_witness :
    processor_imagemagick_search "doc/x.inkscape.svg.pdf".toList =
        some (some { crop := false, inkscape := true }) ∧
      ((false = true ↔
          (uncrop_png_pdf <:+ "doc/x.inkscape.svg.pdf".toList ∨
            uncrop_jpeg_pdf <:+ "doc/x.inkscape.svg.pdf".toList ∨
            uncrop_svg_pdf <:+ "doc/x.inkscape.svg.pdf".toList)) ∧
        (true = true ↔ inkscape_svg_pdf <:+ "doc/x.inkscape.svg.pdf".toList)) :=
  ⟨by decide,
    search_flags "doc/x.inkscape.svg.pdf".toList { crop := false, inkscape := true }
      (by decide)⟩

/-- C3. For a filename that search claims and whose first occurrence of the
marker `.tek_cache/` is at offset `k`, `process` finds `k`, its path derivation
succeeds, and the names it emits with are: cacheName, the filename without its
last 4 characters, and infile, the first `k` characters followed by the
filename from offset `k + 11`, without the last 4 characters of that
concatenation. -/
theorem process_derives_cachename_infile (filename : List Char) (p : processor_imagemagick)
    (k : Nat) (w : World)
    (hclaim : processor_imagemagick_search filename = some (some p))
    (hk : tek_cache <+: filename.drop k)
    (hfirst : ∀ j, j < k → ¬ tek_cache <+: filename.drop j) :
    ∃ n : Names,
      string_index filename tek_cache = (k : Int) ∧
      derive_names p filename k = some n ∧
      process p filename w = some { w with makefile := emit p filename n w.makefile } ∧
      n.cachename = filename.take (filename.length - 4) ∧
      n.infile =
        (filename.take k ++ filename.drop (k + 11)).take
          ((filename.take k ++ filename.drop (k + 11)).length - 4) := by
  have hl := length_of_search_claim filename p hclaim
  have e := string_index_of_first filename tek_cache tek_cache_ne_nil k hk hfirst
  have hb := occurrence_bound tek_cache_ne_nil hk
  rw [tek_cache_length] at hb
  have hd := derive_names_of_long p filename k hb (by omega)
  have hne : (k : Int) ≠ -1 := by omega
  refine ⟨names_at p filename k, e, hd, ?_, rfl, ?_⟩
  · simp [process, e, hne, hd]
  · have hlen : (filename.take k ++ filename.drop (k + 11)).length = filename.length - 11 := by
      simp only [List.length_append, List.length_take, List.length_drop]
      omega
    rw [hlen]
    rfl

theorem process_derives_cachename_infile_witness :
    ∃ n : Names,
      string_index "foo/bar.tek_cache/baz.png.pdf".toList tek_cache = ((7 : Nat) : Int) ∧
      derive_names { crop := false, inkscape := false }
        "foo/bar.tek_cache/baz.png.pdf".toList 7 = some n ∧
      process { crop := false, inkscape := false } "foo/bar.tek_cache/baz.png.pdf".toList
          { makefile := [], stderr := [] } =
        some { makefile := emit { crop := false, inkscape := false }
                 "foo/bar.tek_cache/baz.png.pdf".toList n [],
               stderr := [] } ∧
      n.cachename = "foo/bar.tek_cache/baz.png.pdf".toList.take
        ("foo/bar.tek_cache/baz.png.pdf".toList.length - 4) ∧
      n.infile =
        ("foo/bar.tek_cache/baz.png.pdf".toList.take 7 ++
            "foo/bar.tek_cache/baz.png.pdf".toList.drop (7 + 11)).take
          (("foo/bar.tek_cache/baz.png.pdf".toList.take 7 ++
            "foo/bar.tek_cache/baz.png.pdf".toList.drop (7 + 11)).length - 4) :=
  process_derives_cachename_infile "foo/bar.tek_cache/baz.png.pdf".toList
    { crop := false, inkscape := false } 7 { makefile := [], stderr := [] }
    (by decide) (by decide) (by decide)

/-- C4. For every claim and every filename without the marker, `process`
leaves the sink exactly as it was (it only writes the error message); for
every filename that search claims and that contains the marker, it appends the
complete fragment, every target of it closed; and whenever it returns, the
sink is either unchanged or extended by a complete fragment. -/
theorem process_all_or_nothing (p : processor_imagemagick) (filename : List Char)
    (w : World) :
    (¬ tek_cache <:+: filename →
        process p filename w = some { w with stderr := w.stderr ++ bad_cachedir_msg }) ∧
      (tek_cache <:+: filename →
        ∀ q : processor_imagemagick,
          processor_imagemagick_search filename = some (some q) →
          ∃ n : Names, process p filename w =
            some { w with makefile :=
              w.makefile ++ blocks_ops (fragment_blocks p filename n) }) ∧
      (∀ w2 : World, process p filename w = some w2 →
        w2.makefile = w.makefile ∨
          ∃ n : Names,
            w2.makefile = w.makefile ++ blocks_ops (fragment_blocks p filename n)) := by
  refine ⟨process_of_no_marker p filename w, ?_, ?_⟩
  · intro h q hclaim
    have hl := length_of_search_claim filename q hclaim
    obtain ⟨k, _, _, _, _, e⟩ := process_of_marker p filename w h (by omega)
    exact ⟨_, e⟩
  · intro w2 h2
    by_cases h : tek_cache <:+: filename
    · by_cases hlen : 15 ≤ filename.length
      · obtain ⟨k, _, _, _, _, e⟩ := process_of_marker p filename w h hlen
        rw [e] at h2
        simp only [Option.some.injEq] at h2
        subst h2
        exact Or.inr ⟨_, rfl⟩
      · rw [process_of_short p filename w h (by omega)] at h2
        simp at h2
    · rw [process_of_no_marker p filename w h] at h2
      simp only [Option.some.injEq] at h2
      subst h2
      exact Or.inl rfl

theorem process_all_or_nothing_witness :
    process { crop := false, inkscape := false } "pic.png.pdf".toList
        { makefile := [], stderr := [] } =
      some { makefile := [], stderr := bad_cachedir_msg } ∧
    ∃ n : Names,
      process { crop := true, inkscape := false } "a.tek_cache/b.uncrop.png.pdf".toList
          { makefile := [], stderr := [] } =
        some { makefile := [] ++ blocks_ops
                 (fragment_blocks { crop := true, inkscape := false }
                   "a.tek_cache/b.uncrop.png.pdf".toList n),
               stderr := [] } :=
  ⟨(process_all_or_nothing { crop := false, inkscape := false } "pic.png.pdf".toList
      { makefile := [], stderr := [] }).1 (by decide),
    (process_all_or_nothing { crop := true, inkscape := false }
      "a.tek_cache/b.uncrop.png.pdf".toList { makefile := [], stderr := [] }).2.1
      ⟨"a".toList, "b.uncrop.png.pdf".toList, rfl⟩
      { crop := true, inkscape := false } (by decide)⟩

/-- C8 (as stated). For the crop claim on `c.tek_cache/d.uncrop.png.pdf`,
outName is the whole filename followed by `-tocrop.pdf`: no suffix of the
filename, of any length, was removed to make room for it.  And for the crop
claim on `.tek_cache/abc` (marker present) no outName is derived at all: the
call has no defined result. -/
theorem outname_keeps_original_suffix :
    (∃ n : Names,
        derive_names { crop := true, inkscape := false } "c.tek_cache/d.uncrop.png.pdf".toList
          (string_index "c.tek_cache/d.uncrop.png.pdf".toList tek_cache).toNat = some n ∧
        n.outname = "c.tek_cache/d.uncrop.png.pdf-tocrop.pdf".toList ∧
        ¬ ∃ stem suffix : List Char, suffix ≠ [] ∧
            "c.tek_cache/d.uncrop.png.pdf".toList = stem ++ suffix ∧
            n.outname = stem ++ "-tocrop.pdf".toList) ∧
      (tek_cache <:+: ".tek_cache/abc".toList ∧
        process { crop := true, inkscape := true } ".tek_cache/abc".toList
          { makefile := [], stderr := [] } = none) := by
  have ho : (names_at { crop := true, inkscape := false }
      "c.tek_cache/d.uncrop.png.pdf".toList 1).outname =
      "c.tek_cache/d.uncrop.png.pdf-tocrop.pdf".toList := by decide
  refine ⟨⟨names_at { crop := true, inkscape := false }
      "c.tek_cache/d.uncrop.png.pdf".toList 1, by decide, ho, ?_⟩,
    ⟨[], "abc".toList, rfl⟩, by decide⟩
  rintro ⟨stem, suffix, hne, h1, h2⟩
  rw [ho] at h2
  have l1 := congrArg List.length h1
  have l2 := congrArg List.length h2
  have hpos : 0 < suffix.length := List.length_pos.mpr hne
  have e1 : "c.tek_cache/d.uncrop.png.pdf".toList.length = 28 := by decide
  have e2 : "-tocrop.pdf".toList.length = 11 := by decide
  have e3 : "c.tek_cache/d.uncrop.png.pdf-tocrop.pdf".toList.length = 39 := by decide
  rw [List.length_append] at l1 l2
  omega

/-- C8 (amended). For every claim and every filename with the marker and at
least 15 characters, outName is the filename when crop is not set, and the
whole filename followed by `-tocrop.pdf` when crop is set. -/
theorem process_outname (p : processor_imagemagick) (filename : List Char) (w : World)
    (h : tek_cache <:+: filename) (hlen : 15 ≤ filename.length) :
    ∃ n : Names,
      derive_names p filename (string_index filename tek_cache).toNat = some n ∧
      process p filename w = some { w with makefile := emit p filename n w.makefile } ∧
      (p.crop = false → n.outname = filename) ∧
      (p.crop = true → n.outname = filename ++ "-tocrop.pdf".toList) := by
  obtain ⟨n, hd, _, ho, hp⟩ := process_fragment p filename w h hlen
  refine ⟨n, hd, ?_, ?_, ?_⟩
  · rw [hp, emit_eq]
  · intro hc
    rw [ho, hc]
    rfl
  · intro hc
    rw [ho, hc]
    rfl

theorem process_outname_witness :
    ∃ n : Names,
      derive_names { crop := true, inkscape := false } "c.tek_cache/d.uncrop.png.pdf".toList
        (string_index "c.tek_cache/d.uncrop.png.pdf".toList tek_cache).toNat = some n ∧
      process { crop := true, inkscape := false } "c.tek_cache/d.uncrop.png.pdf".toList
          { makefile := [], stderr := [] } =
        some { makefile := emit { crop := true, inkscape := false } "c.tek_cache/d.uncrop.png.pdf".toList n [], stderr := [] } ∧
      (true = false → n.outname = "c.tek_cache/d.uncrop.png.pdf".toList) ∧
      (true = true →
        n.outname = "c.tek_cache/d.uncrop.png.pdf".toList ++ "-tocrop.pdf".toList) :=
  process_outname { crop := true, inkscape := false } "c.tek_cache/d.uncrop.png.pdf".toList
    { makefile := [], stderr := [] } ⟨"c".toList, "d.uncrop.png.pdf".toList, rfl⟩ (by decide)

/-- C9. For every claim and every filename that search claims, with the marker
or without it, `process` returns and the operations it appends to the sink are
the operations of zero or more targets, each exactly `createTarget, startDeps,
addDep*, endDeps, startCmds, (addNamedCmd | addCmd)*, endCmds`; the order
automaton of the sink accepts them, so no dependency and no command is added
outside its group. -/
theorem process_balanced (p q : processor_imagemagick) (filename : List Char) (w : World)
    (hclaim : processor_imagemagick_search filename = some (some q)) :
    ∃ (w2 : World) (bs : List Block),
      process p filename w = some w2 ∧
      w2.makefile = w.makefile ++ blocks_ops bs ∧
      Balanced (blocks_ops bs) ∧
      sink_accepts (blocks_ops bs) = true := by
  have hl := length_of_search_claim filename q hclaim
  by_cases h : tek_cache <:+: filename
  · obtain ⟨n, _, _, _, hp⟩ := process_fragment p filename w h (by omega)
    exact ⟨_, fragment_blocks p filename n, hp, rfl, ⟨_, rfl⟩, sink_accepts_blocks _⟩
  · refine ⟨_, [], process_of_no_marker p filename w h, ?_, ⟨[], rfl⟩, sink_accepts_blocks _⟩
    simp [blocks_ops]

theorem process_balanced_witness :
    ∃ (w2 : World) (bs : List Block),
      process { crop := true, inkscape := false } "a.tek_cache/b.uncrop.svg.pdf".toList
        { makefile := [], stderr := [] } = some w2 ∧
      w2.makefile = [] ++ blocks_ops bs ∧
      Balanced (blocks_ops bs) ∧
      sink_accepts (blocks_ops bs) = true :=
  process_balanced { crop := true, inkscape := false } { crop := true, inkscape := false }
    "a.tek_cache/b.uncrop.svg.pdf".toList { makefile := [], stderr := [] } (by decide)

/-- C10. For every claim and every filename that search claims and that
contains the marker, the filename splits at its last `/` into a directory part
and a base name, `basename_len` is the length of the directory part, and in
every target `process` emits there is a mkdir command for that directory part
and no mkdir command for anything else.  The value of the marker-based first
derivation (the filename cut after the marker) is not what mkdir is given: it
stands in a mkdir command of the fragment only where it is the directory part
itself. -/
theorem process_mkdir_dir (p q : processor_imagemagick) (filename : List Char) (w : World)
    (hclaim : processor_imagemagick_search filename = some (some q))
    (h : tek_cache <:+: filename) :
    ∃ (dir base : List Char) (n : Names),
      filename = dir ++ '/' :: base ∧ '/' ∉ base ∧
      basename_len filename = dir.length ∧
      derive_names p filename (string_index filename tek_cache).toNat = some n ∧
      n.cachedir = dir ∧
      process p filename w =
        some { w with makefile :=
          w.makefile ++ blocks_ops (fragment_blocks p filename n) } ∧
      (∀ b ∈ fragment_blocks p filename n,
        Cmd.plain (mkdir_cmd dir) ∈ b.cmds ∧
          ∀ d, Cmd.plain (mkdir_cmd d) ∈ b.cmds → d = dir) ∧
      ∃ first : List Char,
        store_nul filename.length filename
          ((string_index filename tek_cache).toNat + tex_cache.length) = some first ∧
        (first ≠ dir →
          ∀ b ∈ fragment_blocks p filename n, Cmd.plain (mkdir_cmd first) ∉ b.cmds) := by
  have hl := length_of_search_claim filename q hclaim
  have hlen : 15 ≤ filename.length := by omega
  have hslash : '/' ∈ filename := by
    obtain ⟨s, t, e⟩ := h
    rw [← e]
    simp [tek_cache]
  obtain ⟨dir, base, e, hbase⟩ := exists_last_slash filename hslash
  obtain ⟨n, hd, hc, _, hp⟩ := process_fragment p filename w h hlen
  have hbl : basename_len filename = dir.length := by
    rw [e]
    exact basename_len_last dir base hbase
  have hdir : n.cachedir = dir := by
    rw [hc, hbl, e]
    simp
  have hall : ∀ b ∈ fragment_blocks p filename n,
      Cmd.plain (mkdir_cmd dir) ∈ b.cmds ∧
        ∀ d, Cmd.plain (mkdir_cmd d) ∈ b.cmds → d = dir := by
    intro b hb
    rw [← hdir]
    exact fragment_mkdir p filename n b hb
  obtain ⟨k, ek, hk, _, _⟩ := string_index_found filename tek_cache tek_cache_ne_nil h
  rw [tek_cache_length] at hk
  have hfirst : store_nul filename.length filename
      ((string_index filename tek_cache).toNat + tex_cache.length) =
        some (filename.take (k + 11)) := by
    have ht : tex_cache.length = 11 := rfl
    rw [ek, ht]
    simp [store_nul, hk]
  refine ⟨dir, base, n, e, hbase, hbl, hd, hdir, hp, hall, _, hfirst, ?_⟩
  intro hne b hb hmem
  exact hne ((hall b hb).2 _ hmem)

theorem process_mkdir_dir_witness :
    ∃ (dir base : List Char) (n : Names),
      "a.tek_cache/b/c.png.pdf".toList = dir ++ '/' :: base ∧ '/' ∉ base ∧
      basename_len "a.tek_cache/b/c.png.pdf".toList = dir.length ∧
      derive_names { crop := false, inkscape := false } "a.tek_cache/b/c.png.pdf".toList
        (string_index "a.tek_cache/b/c.png.pdf".toList tek_cache).toNat = some n ∧
      n.cachedir = dir ∧
      process { crop := false, inkscape := false } "a.tek_cache/b/c.png.pdf".toList
          { makefile := [], stderr := [] } =
        some { stderr := [], makefile := [] ++ blocks_ops (fragment_blocks { crop := false, inkscape := false } "a.tek_cache/b/c.png.pdf".toList n) } ∧
      (∀ b ∈ fragment_blocks { crop := false, inkscape := false }
          "a.tek_cache/b/c.png.pdf".toList n,
        Cmd.plain (mkdir_cmd dir) ∈ b.cmds ∧
          ∀ d, Cmd.plain (mkdir_cmd d) ∈ b.cmds → d = dir) ∧
      ∃ first : List Char,
        store_nul "a.tek_cache/b/c.png.pdf".toList.length "a.tek_cache/b/c.png.pdf".toList
          ((string_index "a.tek_cache/b/c.png.pdf".toList tek_cache).toNat +
            tex_cache.length) = some first ∧
        (first ≠ dir →
          ∀ b ∈ fragment_blocks { crop := false, inkscape := false }
              "a.tek_cache/b/c.png.pdf".toList n,
            Cmd.plain (mkdir_cmd first) ∉ b.cmds) :=
  process_mkdir_dir { crop := false, inkscape := false } { crop := false, inkscape := false }
    "a.tek_cache/b/c.png.pdf".toList { makefile := [], stderr := [] } (by decide)
    ⟨"a".toList, "b/c.png.pdf".toList, rfl⟩

/-- C11. For a filename that search claims and whose first occurrence of the
marker is at offset `k`: the spliced string (the part before the marker
followed by the part after it) has at least 4 characters, the derivation
succeeds, infile followed by `.pdf` is the spliced string, infile ends with
`.png`, `.jpeg` or `.svg`, and cacheName followed by `.pdf` is the filename. -/
theorem strip_removes_pdf (filename : List Char) (p : processor_imagemagick) (k : Nat)
    (hclaim : processor_imagemagick_search filename = some (some p))
    (hk : tek_cache <+: filename.drop k)
    (hfirst : ∀ j, j < k → ¬ tek_cache <+: filename.drop j) :
    string_index filename tek_cache = (k : Int) ∧
      4 ≤ (filename.take k ++ filename.drop (k + 11)).length ∧
      ∃ n : Names,
        derive_names p filename k = some n ∧
        n.infile ++ ".pdf".toList = filename.take k ++ filename.drop (k + 11) ∧
        (".png".toList <:+ n.infile ∨ ".jpeg".toList <:+ n.infile ∨
          ".svg".toList <:+ n.infile) ∧
        n.cachename ++ ".pdf".toList = filename := by
  have hl := length_of_search_claim filename p hclaim
  have hc := claimable_of_search_claim filename p hclaim
  have hkl := occurrence_bound tek_cache_ne_nil hk
  rw [tek_cache_length] at hkl
  refine ⟨string_index_of_first filename tek_cache tek_cache_ne_nil k hk hfirst, ?_,
    names_at p filename k, derive_names_of_long p filename k hkl (by omega), ?_⟩
  · simp only [List.length_append, List.length_take, List.length_drop]
    omega
  · rcases hc with h1 | h1 | h1
    · obtain ⟨a, b, c⟩ := strip_of_suffix p filename ".png".toList k hk h1 (by decide)
      exact ⟨a, Or.inl b, c⟩
    · obtain ⟨a, b, c⟩ := strip_of_suffix p filename ".jpeg".toList k hk h1 (by decide)
      exact ⟨a, Or.inr (Or.inl b), c⟩
    · obtain ⟨a, b, c⟩ := strip_of_suffix p filename ".svg".toList k hk h1 (by decide)
      exact ⟨a, Or.inr (Or.inr b), c⟩

theorem strip_removes_pdf_witness :
    string_index "doc/.tek_cache/fig.jpeg.pdf".toList tek_cache = ((4 : Nat) : Int) ∧
      4 ≤ ("doc/.tek_cache/fig.jpeg.pdf".toList.take 4 ++
            "doc/.tek_cache/fig.jpeg.pdf".toList.drop (4 + 11)).length ∧
      ∃ n : Names,
        derive_names { crop := false, inkscape := false }
          "doc/.tek_cache/fig.jpeg.pdf".toList 4 = some n ∧
        n.infile ++ ".pdf".toList =
          "doc/.tek_cache/fig.jpeg.pdf".toList.take 4 ++
            "doc/.tek_cache/fig.jpeg.pdf".toList.drop (4 + 11) ∧
        (".png".toList <:+ n.infile ∨ ".jpeg".toList <:+ n.infile ∨
          ".svg".toList <:+ n.infile) ∧
        n.cachename ++ ".pdf".toList = "doc/.tek_cache/fig.jpeg.pdf".toList :=
  strip_removes_pdf "doc/.tek_cache/fig.jpeg.pdf".toList { crop := false, inkscape := false } 4
    (by decide) (by decide) (by decide)

/-- C15. For every claim, every prior sink content and every filename that
search claims, the sink after `process` is the sink before it followed by
`fragment_ops`, a function of the flags and the filename alone; and a second
call with the same claim and filename appends the same fragment once more,
behind the first, leaving what was emitted before as it was. -/
theorem process_appends_fragment (p q : processor_imagemagick) (filename : List Char)
    (w : World) (hclaim : processor_imagemagick_search filename = some (some q)) :
    (∃ w1 : World, process p filename w = some w1 ∧
        w1.makefile = w.makefile ++ fragment_ops p filename) ∧
      (∃ w1 w2 : World, process p filename w = some w1 ∧ process p filename w1 = some w2 ∧
        w2.makefile = (w.makefile ++ fragment_ops p filename) ++ fragment_ops p filename) := by
  have hl := length_of_search_claim filename q hclaim
  have hdom : ¬ tek_cache <:+: filename ∨ 15 ≤ filename.length := Or.inr (by omega)
  refine ⟨⟨_, process_eq_append p filename w hdom, rfl⟩, ?_⟩
  exact ⟨_, _, process_eq_append p filename w hdom, process_eq_append p filename _ hdom, rfl⟩

theorem process_appends_fragment_witness :
    (∃ w1 : World,
        process { crop := true, inkscape := false } "a.tek_cache/b.uncrop.png.pdf".toList
          { makefile := [MakeOp.createTarget "t".toList], stderr := [] } = some w1 ∧
        w1.makefile = [MakeOp.createTarget "t".toList] ++
          fragment_ops { crop := true, inkscape := false } "a.tek_cache/b.uncrop.png.pdf".toList) ∧
      (∃ w1 w2 : World,
        process { crop := true, inkscape := false } "a.tek_cache/b.uncrop.png.pdf".toList
          { makefile := [MakeOp.createTarget "t".toList], stderr := [] } = some w1 ∧
        process { crop := true, inkscape := false } "a.tek_cache/b.uncrop.png.pdf".toList w1 =
          some w2 ∧
        w2.makefile = ([MakeOp.createTarget "t".toList] ++
          fragment_ops { crop := true, inkscape := false } "a.tek_cache/b.uncrop.png.pdf".toList) ++
          fragment_ops { crop := true, inkscape := false } "a.tek_cache/b.uncrop.png.pdf".toList) :=
  process_appends_fragment { crop := true, inkscape := false }
    { crop := true, inkscape := false } "a.tek_cache/b.uncrop.png.pdf".toList
    { makefile := [MakeOp.createTarget "t".toList], stderr := [] } (by decide)

/-- C16. `string_ends_with` is not defined when the string is shorter than the
suffix: for `.png.pdf` tested against `.inkscape.svg.pdf` the comparison
starts 9 characters before the string; and search on `.png.pdf` has no defined
result either. -/
theorem string_ends_with_undefined_on_shorter :
    string_ends_with ".png.pdf".toList ".inkscape.svg.pdf".toList = none ∧
      processor_imagemagick_search ".png.pdf".toList = none := by
  decide

/-- C17. For every claim and every filename that search claims and that
contains the marker, the targets of the fragment `process` emits are pairwise
distinct (outName, the filename when crop is set, cacheName), and no target is
among its own dependencies: outName differs from cacheName, the filename
differs from outName when crop is set, and cacheName differs from infile. -/
theorem process_targets_distinct (p q : processor_imagemagick) (filename : List Char)
    (w : World) (hclaim : processor_imagemagick_search filename = some (some q))
    (h : tek_cache <:+: filename) :
    ∃ n : Names,
      derive_names p filename (string_index filename tek_cache).toNat = some n ∧
      process p filename w =
        some { w with makefile :=
          w.makefile ++ blocks_ops (fragment_blocks p filename n) } ∧
      (fragment_blocks p filename n).map Block.target =
        [n.outname] ++ (if p.crop then [filename] else []) ++ [n.cachename] ∧
      ((fragment_blocks p filename n).map Block.target).Nodup ∧
      n.outname ≠ n.cachename ∧
      (p.crop = true → filename ≠ n.outname ∧ filename ≠ n.cachename) ∧
      n.cachename ≠ n.infile ∧
      ∀ b ∈ fragment_blocks p filename n, b.target ∉ b.deps := by
  have hl := length_of_search_claim filename q hclaim
  have hlen : 15 ≤ filename.length := by omega
  obtain ⟨k, e, hk, _, _, hp⟩ := process_of_marker p filename w h hlen
  obtain ⟨li, lc, lo⟩ := names_at_lengths p filename k hk hlen
  have hoc : (names_at p filename k).outname ≠ (names_at p filename k).cachename := by
    intro he
    have := congrArg List.length he
    rw [lo, lc] at this
    split at this <;> omega
  have hfc : filename ≠ (names_at p filename k).cachename := by
    intro he
    have := congrArg List.length he
    rw [lc] at this
    omega
  have hfo : p.crop = true → filename ≠ (names_at p filename k).outname := by
    intro hc he
    have := congrArg List.length he
    rw [lo, if_pos hc] at this
    omega
  have hci : (names_at p filename k).cachename ≠ (names_at p filename k).infile := by
    intro he
    have := congrArg List.length he
    rw [lc, li] at this
    omega
  refine ⟨names_at p filename k, ?_, hp, ?_, ?_, hoc, fun hc => ⟨hfo hc, hfc⟩, hci, ?_⟩
  · rw [e]
    exact derive_names_of_long p filename k hk hlen
  · cases hc : p.crop <;> simp [fragment_blocks, hc, convert_block, crop_block, copy_block]
  · cases hc : p.crop
    · simpa [fragment_blocks, hc, convert_block, copy_block] using hoc
    · have h1 := hfo hc
      simp [fragment_blocks, hc, convert_block, crop_block, copy_block]
      exact ⟨⟨fun he => h1 he.symm, hoc⟩, hfc⟩
  · intro b hb
    simp only [fragment_blocks, List.mem_append, List.mem_singleton] at hb
    rcases hb with (hb | hb) | hb
    · subst hb
      simpa [convert_block] using hoc
    · split at hb
      · rename_i hc
        simp only [List.mem_singleton] at hb
        subst hb
        simpa [crop_block] using hfo hc
      · simp at hb
    · subst hb
      simpa [copy_block] using hci

theorem process_targets_distinct_witness :
    ∃ n : Names,
      derive_names { crop := true, inkscape := false } "a.tek_cache/b.uncrop.png.pdf".toList
        (string_index "a.tek_cache/b.uncrop.png.pdf".toList tek_cache).toNat = some n ∧
      process { crop := true, inkscape := false } "a.tek_cache/b.uncrop.png.pdf".toList
          { makefile := [], stderr := [] } =
        some { stderr := [], makefile := [] ++ blocks_ops (fragment_blocks { crop := true, inkscape := false } "a.tek_cache/b.uncrop.png.pdf".toList n) } ∧
      (fragment_blocks { crop := true, inkscape := false }
          "a.tek_cache/b.uncrop.png.pdf".toList n).map Block.target =
        [n.outname] ++ (if true then ["a.tek_cache/b.uncrop.png.pdf".toList] else []) ++
          [n.cachename] ∧
      ((fragment_blocks { crop := true, inkscape := false }
          "a.tek_cache/b.uncrop.png.pdf".toList n).map Block.target).Nodup ∧
      n.outname ≠ n.cachename ∧
      (true = true → "a.tek_cache/b.uncrop.png.pdf".toList ≠ n.outname ∧
        "a.tek_cache/b.uncrop.png.pdf".toList ≠ n.cachename) ∧
      n.cachename ≠ n.infile ∧
      ∀ b ∈ fragment_blocks { crop := true, inkscape := false }
          "a.tek_cache/b.uncrop.png.pdf".toList n, b.target ∉ b.deps :=
  process_targets_distinct { crop := true, inkscape := false }
    { crop := true, inkscape := false }
    "a.tek_cache/b.uncrop.png.pdf".toList { makefile := [], stderr := [] } (by decide)
    ⟨"a".toList, "b.uncrop.png.pdf".toList, rfl⟩

/-- C18. For every filename in which the marker occurs at offset `k`,
`basename_len` is at least `k + 10`, so the cacheDir handed to mkdir (the first
`basename_len` characters of the filename) is not empty and starts with the
first `k + 10` characters of the filename, everything through `.tek_cache`; and
that is the cacheDir of the names `process` derives. -/
theorem basename_len_covers_marker (filename : List Char) (k : Nat)
    (hk : tek_cache <+: filename.drop k) :
    k + 10 ≤ basename_len filename ∧
      talloc_strndup filename (some (basename_len filename)) ≠ [] ∧
      filename.take (k + 10) <+: talloc_strndup filename (some (basename_len filename)) ∧
      filename.take (k + 10) = filename.take k ++ ".tek_cache".toList ∧
      ∀ (p : processor_imagemagick) (n : Names), derive_names p filename k = some n →
        n.cachedir = talloc_strndup filename (some (basename_len filename)) := by
  have hkl := occurrence_bound tek_cache_ne_nil hk
  rw [tek_cache_length] at hkl
  have hb := le_basename_len_of_slash filename (k + 10) (slash_of_marker filename k hk)
  refine ⟨hb, ?_, List.take_prefix_take_left filename hb, ?_, ?_⟩
  · intro he
    have := congrArg List.length he
    simp only [talloc_strndup, List.length_take, List.length_nil] at this
    omega
  · have hsplit := split_at_marker filename k hk
    conv_lhs => rw [hsplit]
    have e : tek_cache ++ filename.drop (k + 11) =
        ".tek_cache".toList ++ ('/' :: filename.drop (k + 11)) := rfl
    rw [e, ← List.append_assoc]
    apply List.take_left'
    simp only [List.length_append, List.length_take]
    have : ".tek_cache".toList.length = 10 := rfl
    omega
  · intro p n hn
    by_cases hlen : 15 ≤ filename.length
    · rw [derive_names_of_long p filename k hkl hlen] at hn
      simp only [Option.some.injEq] at hn
      rw [← hn]
      rfl
    · rw [derive_names_of_short p filename k hkl (by omega)] at hn
      simp at hn

theorem basename_len_covers_marker_witness :
    1 + 10 ≤ basename_len "a.tek_cache/b/c.png.pdf".toList ∧
      talloc_strndup "a.tek_cache/b/c.png.pdf".toList
        (some (basename_len "a.tek_cache/b/c.png.pdf".toList)) ≠ [] ∧
      "a.tek_cache/b/c.png.pdf".toList.take (1 + 10) <+:
        talloc_strndup "a.tek_cache/b/c.png.pdf".toList
          (some (basename_len "a.tek_cache/b/c.png.pdf".toList)) ∧
      "a.tek_cache/b/c.png.pdf".toList.take (1 + 10) =
        "a.tek_cache/b/c.png.pdf".toList.take 1 ++ ".tek_cache".toList ∧
      ∀ (p : processor_imagemagick) (n : Names),
        derive_names p "a.tek_cache/b/c.png.pdf".toList 1 = some n →
        n.cachedir = talloc_strndup "a.tek_cache/b/c.png.pdf".toList
          (some (basename_len "a.tek_cache/b/c.png.pdf".toList)) :=
  basename_len_covers_marker "a.tek_cache/b/c.png.pdf".toList 1 (by decide)

/-- C19. The claim search returns never has both crop and inkscape set;
`a.uncrop.inkscape.svg.pdf` yields inkscape only and
`a.inkscape.uncrop.svg.pdf` yields crop only. -/
theorem search_flags_exclusive :
    (∀ (filename : List Char) (p : processor_imagemagick),
        processor_imagemagick_search filename = some (some p) →
        ¬ (p.crop = true ∧ p.inkscape = true)) ∧
      processor_imagemagick_search "a.uncrop.inkscape.svg.pdf".toList =
        some (some { crop := false, inkscape := true }) ∧
      processor_imagemagick_search "a.inkscape.uncrop.svg.pdf".toList =
        some (some { crop := true, inkscape := false }) := by
  refine ⟨?_, by decide, by decide⟩
  intro filename p h
  have hl := length_of_search_claim filename p h
  have hc := claimable_of_search_claim filename p h
  rw [search_of_long filename hl, if_pos hc] at h
  simp only [Option.some.injEq] at h
  subst h
  rintro ⟨h1, h2⟩
  simp only [decide_eq_true_eq] at h1 h2
  exact not_uncrop_and_inkscape filename h1 h2

theorem search_flags_exclusive_witness :
    ¬ (({ crop := true, inkscape := false } : processor_imagemagick).crop = true ∧
        ({ crop := true, inkscape := false } : processor_imagemagick).inkscape = true) :=
  search_flags_exclusive.1 "a.inkscape.uncrop.svg.pdf".toList
    { crop := true, inkscape := false } (by decide)

/-- C20. For every string `a` and every non-empty string `b`, `string_index`
returns -1 exactly when `b` does not occur in `a`, and returns `k` exactly when
`k` is the least offset at which `b` occurs in `a` (then `k < length a` and the
occurrence ends inside `a`); it returns nothing else.  So `process` takes its
error path, writing the message and nothing into the sink, exactly when
`.tek_cache/` is not a substring of the filename. -/
theorem string_index_spec (a b : List Char) (hb : b ≠ []) :
    (string_index a b = -1 ↔ ¬ b <:+: a) ∧
      (∀ k : Nat, string_index a b = (k : Int) ↔
        (b <+: a.drop k ∧ ∀ j, j < k → ¬ b <+: a.drop j)) ∧
      (∀ k : Nat, string_index a b = (k : Int) → k < a.length ∧ k + b.length ≤ a.length) ∧
      (string_index a b = -1 ∨ ∃ k : Nat, string_index a b = (k : Int)) ∧
      (∀ (p : processor_imagemagick) (filename : List Char) (w : World),
        process p filename w = some { w with stderr := w.stderr ++ bad_cachedir_msg } ↔
          ¬ tek_cache <:+: filename) := by
  have hpos : 0 < b.length := List.length_pos.mpr hb
  have hfound : ∀ k : Nat, string_index a b = (k : Int) →
      (b <+: a.drop k ∧ ∀ j, j < k → ¬ b <+: a.drop j) := by
    intro k hk
    have hin : b <:+: a := by
      by_contra hno
      rw [(string_index_eq_neg_one_iff a b hb).mpr hno] at hk
      omega
    obtain ⟨k2, e, _, h2, h3⟩ := string_index_found a b hb hin
    rw [e] at hk
    have : k2 = k := by omega
    subst this
    exact ⟨h2, h3⟩
  refine ⟨string_index_eq_neg_one_iff a b hb, ?_, ?_, ?_, ?_⟩
  · intro k
    exact ⟨hfound k, fun h => string_index_of_first a b hb k h.1 h.2⟩
  · intro k hk
    have := occurrence_bound hb (hfound k hk).1
    omega
  · by_cases hin : b <:+: a
    · obtain ⟨k, e, _⟩ := string_index_found a b hb hin
      exact Or.inr ⟨k, e⟩
    · exact Or.inl ((string_index_eq_neg_one_iff a b hb).mpr hin)
  · intro p filename w
    constructor
    · intro hp hin
      by_cases hlen : 15 ≤ filename.length
      · rw [process_eq_append p filename w (Or.inr hlen)] at hp
        have e := (string_index_eq_neg_one_iff filename tek_cache tek_cache_ne_nil).not.mpr
          (not_not.mpr hin)
        simp only [error_text, if_neg e, Option.some.injEq, World.mk.injEq,
          List.append_nil, List.self_eq_append_right] at hp
        exact bad_cachedir_msg_ne_nil hp.2
      · rw [process_of_short p filename w hin (by omega)] at hp
        simp at hp
    · exact process_of_no_marker p filename w

theorem string_index_spec_witness :
    (string_index "foo/bar.tek_cache/baz.png.pdf".toList tek_cache = -1 ↔
        ¬ tek_cache <:+: "foo/bar.tek_cache/baz.png.pdf".toList) ∧
      (∀ k : Nat, string_index "foo/bar.tek_cache/baz.png.pdf".toList tek_cache = (k : Int) ↔
        (tek_cache <+: "foo/bar.tek_cache/baz.png.pdf".toList.drop k ∧
          ∀ j, j < k → ¬ tek_cache <+: "foo/bar.tek_cache/baz.png.pdf".toList.drop j)) ∧
      (∀ k : Nat, string_index "foo/bar.tek_cache/baz.png.pdf".toList tek_cache = (k : Int) →
        k < "foo/bar.tek_cache/baz.png.pdf".toList.length ∧
          k + tek_cache.length ≤ "foo/bar.tek_cache/baz.png.pdf".toList.length) ∧
      (string_index "foo/bar.tek_cache/baz.png.pdf".toList tek_cache = -1 ∨
        ∃ k : Nat, string_index "foo/bar.tek_cache/baz.png.pdf".toList tek_cache = (k : Int)) ∧
      (∀ (p : processor_imagemagick) (filename : List Char) (w : World),
        process p filename w = some { w with stderr := w.stderr ++ bad_cachedir_msg } ↔
          ¬ tek_cache <:+: filename) :=
  string_index_spec "foo/bar.tek_cache/baz.png.pdf".toList tek_cache (by decide)

end Tek
